import Mathlib

/-!
Verification of the core of the Lich5 documentation generator
(`generate_docs.py`).

The Python code is shallowly embedded as executable Lean definitions:

* text is handled at the character-list level (`List Char`); the helper
  functions below reproduce the Python string primitives (`strip`,
  `split`, `lower`, substring containment) over the ASCII range used by
  the program;
* a file's content is represented as its list of lines (`List String`),
  absorbing the `content.split('\n')` / `'\n'.join(lines)` conversions
  that the source performs at the boundaries of every function;
* Python `re.search` calls are embedded as explicit linear scanners over
  character lists whose semantics match the concrete regular expressions
  built by the source (each scanner documents the pattern it models);
* the truncated SHA-256 digest is kept abstract as a parameter
  `h : List String → String` applied to the list of retained code lines
  (the source hashes their newline-join; the join is absorbed into `h`);
* the filesystem is a parameter: an existence predicate and a read
  function `String → Option (List String)`; a `none` read models the
  `except` branch of the corresponding `try`.
-/

namespace GenDocs

/-! ### Python string primitives over `List Char` -/

/-- The whitespace characters recognized by Python's `str.strip()` /
`str.split()` and by the `\s` regex class, restricted to ASCII. -/
def isPySpace (c : Char) : Bool :=
  c = ' ' || c = '\t' || c = '\n' || c = '\r' || c = '\x0b' || c = '\x0c'

/-- The `\w` regex class (word characters), restricted to ASCII. -/
def isWordChar (c : Char) : Bool :=
  c.isAlphanum || c = '_'

/-- Python `str.strip()` on a character list. -/
def pyStripL (l : List Char) : List Char :=
  ((l.dropWhile isPySpace).reverse.dropWhile isPySpace).reverse

/-- Python `str.strip()` on a string. -/
def pyStrip (s : String) : String :=
  ⟨pyStripL s.toList⟩

/-- Python `str.lower()` (ASCII range). -/
def pyLower (s : String) : String :=
  ⟨s.toList.map Char.toLower⟩

/-- Everything before the first occurrence of `sep`:
Python `s.split(sep)[0]`. -/
def takeUntilChar (sep : Char) (l : List Char) : List Char :=
  l.takeWhile (fun c => c ≠ sep)

/-- Everything after the last occurrence of `sep` (the whole list when
`sep` does not occur): Python `s.split(sep)[-1]`. -/
def lastSegAux (sep : Char) (cur : List Char) : List Char → List Char
  | [] => cur.reverse
  | c :: rest => if c = sep then lastSegAux sep [] rest else lastSegAux sep (c :: cur) rest

/-- Python `s.split(sep)[-1]`. -/
def lastSegment (sep : Char) (l : List Char) : List Char :=
  lastSegAux sep [] l

/-- Python `s.split(sep)` for a one-character separator (keeps empty
fields, so splitting the empty list yields `[[]]`, like `''.split(c)`). -/
def splitCharL (sep : Char) : List Char → List (List Char)
  | [] => [[]]
  | c :: rest =>
    if c = sep then [] :: splitCharL sep rest
    else
      match splitCharL sep rest with
      | h :: t => (c :: h) :: t
      | [] => [[c]]

/-- Python `content.split('\n')` at the string level. -/
def pySplitLines (s : String) : List String :=
  (splitCharL '\n' s.toList).map (fun l => ⟨l⟩)

/-- Python whitespace splitting `str.split()` (no empty fields): the
accumulator holds the current word reversed. -/
def splitWsCore : List Char → List Char → List (List Char)
  | [], cur => if cur.isEmpty then [] else [cur.reverse]
  | c :: rest, cur =>
    if isPySpace c then
      if cur.isEmpty then splitWsCore rest [] else cur.reverse :: splitWsCore rest []
    else splitWsCore rest (c :: cur)

/-- Python `str.split()` (split on whitespace runs, dropping empties). -/
def pySplitWsL (l : List Char) : List (List Char) :=
  splitWsCore l []

/-- Does `needle` occur contiguously inside `hay`?  (Python `in`.) -/
def infixOfL (needle : List Char) : List Char → Bool
  | [] => needle.isEmpty
  | c :: rest => needle.isPrefixOf (c :: rest) || infixOfL needle rest

/-- Substring containment: Python `needle in hay`. -/
def containsStr (hay needle : String) : Bool :=
  infixOfL needle.toList hay.toList

/-! ### Response Sanitizer (`sanitize_json_escapes`, generate_docs.py 465-513)

The Python function is a linear scan over the input with an index `i`.
The embedding recurses over the character list; the `\uXXXX` test
`i + 5 < len(json_text)` together with `len(hex_part) == 4` is exactly
"at least four characters follow the `u`", which the embedding expresses
by pattern-matching four characters deep (keeping the recursion
structural). -/

/-- The valid single-character JSON escapes `"\/bfnrt` checked by
`next_char in '"\\/bfnrt'`. -/
def validEscChar (c : Char) : Bool :=
  c ∈ ['"', '\\', '/', 'b', 'f', 'n', 'r', 't']

/-- Hex digits accepted for `\uXXXX`: `'0123456789ABCDEFabcdef'`. -/
def isHexChar (c : Char) : Bool :=
  c ∈ "0123456789ABCDEFabcdef".toList

/-- Embedding of `sanitize_json_escapes` over a character list.  The
first (highest-priority) backslash arm is the valid `\uXXXX` case, whose
guard `i + 5 < len(json_text)` plus `len(hex_part) == 4` is exactly
"four characters follow the `u`"; a `\u` with fewer than four following
characters falls through to the generic invalid-escape arm, matching the
Python control flow (both emit a doubled backslash and advance by two). -/
def sanitizeList : List Char → List Char
  | [] => []
  | ['\\'] => ['\\']
  | '\\' :: 'u' :: h1 :: h2 :: h3 :: h4 :: rest4 =>
    if isHexChar h1 && isHexChar h2 && isHexChar h3 && isHexChar h4 then
      '\\' :: 'u' :: h1 :: h2 :: h3 :: h4 :: sanitizeList rest4
    else '\\' :: '\\' :: 'u' :: sanitizeList (h1 :: h2 :: h3 :: h4 :: rest4)
  | '\\' :: c2 :: rest2 =>
    if validEscChar c2 then '\\' :: c2 :: sanitizeList rest2
    else '\\' :: '\\' :: c2 :: sanitizeList rest2
  | c :: rest => c :: sanitizeList rest

/-- `sanitize_json_escapes` at the string level. -/
def sanitize_json_escapes (s : String) : String :=
  ⟨sanitizeList s.toList⟩

/-- The spec's notion of "only well-formed escape sequences": every
backslash starts either a valid single-character escape or `\u` followed
by four hex digits; a trailing lone backslash is ill-formed. -/
def wellFormedEscapes : List Char → Bool
  | [] => true
  | ['\\'] => false
  | '\\' :: 'u' :: h1 :: h2 :: h3 :: h4 :: rest4 =>
    (isHexChar h1 && isHexChar h2 && isHexChar h3 && isHexChar h4) &&
      wellFormedEscapes rest4
  | '\\' :: c2 :: rest2 => validEscChar c2 && wellFormedEscapes rest2
  | _ :: rest => wellFormedEscapes rest

/-! ### Reduction equations for the sanitizer -/

theorem wellFormedEscapes_cons_other {c : Char} (l : List Char) (h : c ≠ '\\') :
    wellFormedEscapes (c :: l) = wellFormedEscapes l := by
  rw [wellFormedEscapes.eq_def]
  split <;> try simp_all
  all_goals first
    | (rename_i hexcl heq; exact absurd heq.2.symm (hexcl _ _ heq.1.symm))
    | (rename_i hexcl heq; exact absurd heq.2.symm (hexcl _ _ _ _ _ heq.1.symm))
    | (rename_i hn hexcl heq; exact absurd heq.2.symm (hexcl _ _ heq.1.symm))
    | (rename_i hn hexcl heq; exact absurd heq.2.symm (hexcl _ _ _ _ _ heq.1.symm))
    | exact (hne _ _ _ _ _ rfl rfl rfl rfl rfl).elim

theorem wellFormedEscapes_bs_valid {c : Char} (l : List Char) (hv : validEscChar c = true) :
    wellFormedEscapes ('\\' :: c :: l) = wellFormedEscapes l := by
  have hu : c ≠ 'u' := by rintro rfl; simp [validEscChar] at hv
  rw [wellFormedEscapes.eq_def]
  split <;> try simp_all
  all_goals first
    | (rename_i hexcl heq; exact absurd heq.2.symm (hexcl _ _ heq.1.symm))
    | (rename_i hexcl heq; exact absurd heq.2.symm (hexcl _ _ _ _ _ heq.1.symm))
    | (rename_i hn hexcl heq; exact absurd heq.2.symm (hexcl _ _ heq.1.symm))
    | (rename_i hn hexcl heq; exact absurd heq.2.symm (hexcl _ _ _ _ _ heq.1.symm))
    | exact (hne _ _ _ _ _ rfl rfl rfl rfl rfl).elim

theorem wellFormedEscapes_u4 {h1 h2 h3 h4 : Char} (l : List Char)
    (hx : (isHexChar h1 && isHexChar h2 && isHexChar h3 && isHexChar h4) = true) :
    wellFormedEscapes ('\\' :: 'u' :: h1 :: h2 :: h3 :: h4 :: l) = wellFormedEscapes l := by
  rw [wellFormedEscapes.eq_def]
  split <;> try simp_all
  all_goals first
    | (rename_i hexcl heq; exact absurd heq.2.symm (hexcl _ _ heq.1.symm))
    | (rename_i hexcl heq; exact absurd heq.2.symm (hexcl _ _ _ _ _ heq.1.symm))
    | (rename_i hn hexcl heq; exact absurd heq.2.symm (hexcl _ _ heq.1.symm))
    | (rename_i hn hexcl heq; exact absurd heq.2.symm (hexcl _ _ _ _ _ heq.1.symm))
    | exact (hne _ _ _ _ _ rfl rfl rfl rfl rfl).elim

theorem sanitizeList_u4_hex {h1 h2 h3 h4 : Char} (r : List Char)
    (hx : (isHexChar h1 && isHexChar h2 && isHexChar h3 && isHexChar h4) = true) :
    sanitizeList ('\\' :: 'u' :: h1 :: h2 :: h3 :: h4 :: r) =
      '\\' :: 'u' :: h1 :: h2 :: h3 :: h4 :: sanitizeList r := by
  rw [sanitizeList.eq_def]
  split <;> try simp_all
  all_goals first
    | (rename_i hexcl heq; exact absurd heq.2.symm (hexcl _ _ heq.1.symm))
    | (rename_i hexcl heq; exact absurd heq.2.symm (hexcl _ _ _ _ _ heq.1.symm))
    | (rename_i hn hexcl heq; exact absurd heq.2.symm (hexcl _ _ heq.1.symm))
    | (rename_i hn hexcl heq; exact absurd heq.2.symm (hexcl _ _ _ _ _ heq.1.symm))
    | exact (hne _ _ _ _ _ rfl rfl rfl rfl rfl).elim

theorem sanitizeList_u4_nonhex {h1 h2 h3 h4 : Char} (r : List Char)
    (hx : ¬(isHexChar h1 && isHexChar h2 && isHexChar h3 && isHexChar h4) = true) :
    sanitizeList ('\\' :: 'u' :: h1 :: h2 :: h3 :: h4 :: r) =
      '\\' :: '\\' :: 'u' :: sanitizeList (h1 :: h2 :: h3 :: h4 :: r) := by
  rw [sanitizeList.eq_def]
  split <;> try simp_all
  all_goals first
    | (rename_i hexcl heq; exact absurd heq.2.symm (hexcl _ _ heq.1.symm))
    | (rename_i hexcl heq; exact absurd heq.2.symm (hexcl _ _ _ _ _ heq.1.symm))
    | (rename_i hn hexcl heq; exact absurd heq.2.symm (hexcl _ _ heq.1.symm))
    | (rename_i hn hexcl heq; exact absurd heq.2.symm (hexcl _ _ _ _ _ heq.1.symm))
    | exact (hne _ _ _ _ _ rfl rfl rfl rfl rfl).elim

theorem sanitizeList_bs_valid {c : Char} (r : List Char) (hv : validEscChar c = true) :
    sanitizeList ('\\' :: c :: r) = '\\' :: c :: sanitizeList r := by
  have hu : c ≠ 'u' := by rintro rfl; simp [validEscChar] at hv
  rw [sanitizeList.eq_def]
  split <;> try simp_all
  all_goals first
    | (rename_i hexcl heq; exact absurd heq.2.symm (hexcl _ _ heq.1.symm))
    | (rename_i hexcl heq; exact absurd heq.2.symm (hexcl _ _ _ _ _ heq.1.symm))
    | (rename_i hn hexcl heq; exact absurd heq.2.symm (hexcl _ _ heq.1.symm))
    | (rename_i hn hexcl heq; exact absurd heq.2.symm (hexcl _ _ _ _ _ heq.1.symm))
    | exact (hne _ _ _ _ _ rfl rfl rfl rfl rfl).elim

theorem sanitizeList_bs_invalid {c : Char} (r : List Char)
    (hne : ∀ (g1 g2 g3 g4 : Char) (r4 : List Char), c = 'u' → r = g1 :: g2 :: g3 :: g4 :: r4 → False)
    (hv : ¬validEscChar c = true) :
    sanitizeList ('\\' :: c :: r) = '\\' :: '\\' :: c :: sanitizeList r := by
  rw [sanitizeList.eq_def]
  split <;> try simp_all
  all_goals first
    | (rename_i hexcl heq; exact absurd heq.2.symm (hexcl _ _ heq.1.symm))
    | (rename_i hexcl heq; exact absurd heq.2.symm (hexcl _ _ _ _ _ heq.1.symm))
    | (rename_i hn hexcl heq; exact absurd heq.2.symm (hexcl _ _ heq.1.symm))
    | (rename_i hn hexcl heq; exact absurd heq.2.symm (hexcl _ _ _ _ _ heq.1.symm))
    | exact (hne _ _ _ _ _ rfl rfl rfl rfl rfl).elim

theorem sanitizeList_cons_other {c : Char} (r : List Char) (h : c ≠ '\\') :
    sanitizeList (c :: r) = c :: sanitizeList r := by
  rw [sanitizeList.eq_def]
  split <;> try simp_all
  all_goals first
    | (rename_i hexcl heq; exact absurd heq.2.symm (hexcl _ _ heq.1.symm))
    | (rename_i hexcl heq; exact absurd heq.2.symm (hexcl _ _ _ _ _ heq.1.symm))
    | (rename_i hn hexcl heq; exact absurd heq.2.symm (hexcl _ _ heq.1.symm))
    | (rename_i hn hexcl heq; exact absurd heq.2.symm (hexcl _ _ _ _ _ heq.1.symm))
    | exact (hne _ _ _ _ _ rfl rfl rfl rfl rfl).elim

/-! ### Sanitizer guarantees (claim C4) -/

theorem getLast?_cons_cons' (a b : Char) (t : List Char) :
    (a :: b :: t).getLast? = (b :: t).getLast? := rfl

theorem getLast?_append_right (l₁ l₂ : List Char) (h : l₂ ≠ []) :
    (l₁ ++ l₂).getLast? = l₂.getLast? := by
  induction l₁ with
  | nil => rfl
  | cons a t ih =>
    have ht : t ++ l₂ ≠ [] := by
      intro he
      rcases List.append_eq_nil.mp he with ⟨-, h2⟩
      exact h h2
    calc ((a :: t) ++ l₂).getLast? = (t ++ l₂).getLast? := by
          rcases he : t ++ l₂ with - | ⟨b, t2⟩
          · exact absurd he ht
          · rw [List.cons_append, he]; exact getLast?_cons_cons' a b t2
      _ = l₂.getLast? := ih

theorem suffix_not_bs (pre t : List Char) (h : (pre ++ t).getLast? ≠ some '\\') :
    t.getLast? ≠ some '\\' := by
  cases t with
  | nil => simp
  | cons a t' => rw [getLast?_append_right pre (a :: t') (by simp)] at h; exact h

theorem sublist_sanitizeList : ∀ l : List Char, l.Sublist (sanitizeList l) := by
  intro l
  induction l using sanitizeList.induct with
  | case1 => simp [sanitizeList]
  | case2 => simp [sanitizeList]
  | case3 g1 g2 g3 g4 r4 hx ih =>
    rw [sanitizeList_u4_hex r4 hx]
    exact List.Sublist.cons₂ _ (List.Sublist.cons₂ _ (List.Sublist.cons₂ _
      (List.Sublist.cons₂ _ (List.Sublist.cons₂ _ (List.Sublist.cons₂ _ ih)))))
  | case4 g1 g2 g3 g4 r4 hx ih =>
    rw [sanitizeList_u4_nonhex r4 hx]
    exact List.Sublist.cons₂ _ (List.Sublist.cons _ (List.Sublist.cons₂ _ ih))
  | case5 c2 rest2 hne hv ih =>
    rw [sanitizeList_bs_valid rest2 hv]
    exact List.Sublist.cons₂ _ (List.Sublist.cons₂ _ ih)
  | case6 c2 rest2 hne hv ih =>
    rw [sanitizeList_bs_invalid rest2 (fun g1 g2 g3 g4 r4 hu hr => hne g1 g2 g3 g4 r4 hu hr) hv]
    exact List.Sublist.cons₂ _ (List.Sublist.cons _ (List.Sublist.cons₂ _ ih))
  | case7 c rest hx1 hx2 hx3 ih =>
    have hc : c ≠ '\\' := by
      intro he
      cases rest with
      | nil => exact hx1 he rfl
      | cons a t => exact hx3 a t he rfl
    rw [sanitizeList_cons_other rest hc]
    exact List.Sublist.cons₂ _ ih

theorem wellFormed_sanitizeList :
    ∀ l : List Char, l.getLast? ≠ some '\\' → wellFormedEscapes (sanitizeList l) = true := by
  intro l
  induction l using sanitizeList.induct with
  | case1 => intro _; simp [sanitizeList, wellFormedEscapes]
  | case2 => intro h; exact absurd rfl h
  | case3 g1 g2 g3 g4 r4 hx ih =>
    intro h
    rw [sanitizeList_u4_hex r4 hx, wellFormedEscapes_u4 _ hx]
    exact ih (suffix_not_bs ['\\', 'u', g1, g2, g3, g4] r4 h)
  | case4 g1 g2 g3 g4 r4 hx ih =>
    intro h
    rw [sanitizeList_u4_nonhex r4 hx,
      wellFormedEscapes_bs_valid _ (by simp [validEscChar]),
      wellFormedEscapes_cons_other _ (by simp)]
    exact ih (suffix_not_bs ['\\', 'u'] (g1 :: g2 :: g3 :: g4 :: r4) h)
  | case5 c2 rest2 hne hv ih =>
    intro h
    rw [sanitizeList_bs_valid rest2 hv, wellFormedEscapes_bs_valid _ hv]
    exact ih (suffix_not_bs ['\\', c2] rest2 h)
  | case6 c2 rest2 hne hv ih =>
    intro h
    have hc2 : c2 ≠ '\\' := by
      intro he; rw [he] at hv; exact hv (by simp [validEscChar])
    rw [sanitizeList_bs_invalid rest2 (fun g1 g2 g3 g4 r4 hu hr => hne g1 g2 g3 g4 r4 hu hr) hv,
      wellFormedEscapes_bs_valid _ (by simp [validEscChar]),
      wellFormedEscapes_cons_other _ hc2]
    exact ih (suffix_not_bs ['\\', c2] rest2 h)
  | case7 c rest hx1 hx2 hx3 ih =>
    intro h
    have hc : c ≠ '\\' := by
      intro he
      cases rest with
      | nil => exact hx1 he rfl
      | cons a t => exact hx3 a t he rfl
    rw [sanitizeList_cons_other rest hc, wellFormedEscapes_cons_other _ hc]
    exact ih (suffix_not_bs [c] rest h)

/-! ### Claim C4: the sanitizer contract -/

/-- Claim C4, counterexample to the claim as stated: on the input consisting of
a single backslash the sanitizer returns it unchanged (the scan's
`i + 1 < len` guard fails, so the lone backslash is emitted as-is), and the
output therefore still contains an ill-formed escape sequence, contradicting
"its output contains only well-formed escape sequences" for every input. -/
theorem claim_C4_counterexample :
    sanitize_json_escapes "\\" = "\\" ∧
    wellFormedEscapes ((sanitize_json_escapes "\\").toList) = false := by
  decide

/-- Claim C4 (amended): the sanitizer never drops an input character (the
input is a sublist of the output), every backslash-prefixed character that is
not a valid escape is double-escaped (`\c` becomes `\\c`, with malformed `\u`
handled the same way), and in particular `\d` becomes `\\d`; the output
consists solely of well-formed escape sequences provided the input does not
end with a backslash (a lone trailing backslash is passed through unchanged,
which is the single deviation forced by the counterexample). -/
theorem claim_C4_amended :
    (∀ l : List Char, l.Sublist (sanitizeList l)) ∧
    (∀ l : List Char, l.getLast? ≠ some '\\' → wellFormedEscapes (sanitizeList l) = true) ∧
    (∀ (c : Char) (rest : List Char), validEscChar c = false → c ≠ 'u' →
      sanitizeList ('\\' :: c :: rest) = '\\' :: '\\' :: c :: sanitizeList rest) ∧
    sanitize_json_escapes "\\d" = "\\\\d" := by
  refine ⟨sublist_sanitizeList, wellFormed_sanitizeList, ?_, by decide⟩
  intro c rest hv hu
  exact sanitizeList_bs_invalid rest (fun g1 g2 g3 g4 r4 hcu _ => hu hcu) (by simp [hv])

/-- Witness for `claim_C4_amended` at a concrete input. -/
theorem claim_C4_witness :
    ['a', '\\', 'd'].Sublist (sanitizeList ['a', '\\', 'd']) ∧
    wellFormedEscapes (sanitizeList ['a', '\\', 'd']) = true ∧
    sanitizeList ['\\', 'd'] = ['\\', '\\', 'd'] :=
  ⟨claim_C4_amended.1 ['a', '\\', 'd'],
   claim_C4_amended.2.1 ['a', '\\', 'd'] (by decide),
   claim_C4_amended.2.2.1 'd' [] (by decide) (by decide)⟩

/-! ### Anchor soft matching (`soft_match_anchor`, generate_docs.py 573-663)
and the insertion-line resolver (`find_insertion_line`, 665-738)

Every `re.search` call of the source builds a concrete pattern; the
scanners below embed those patterns over character lists.  Two regex
facts are used throughout and noted where they apply: a greedy class
repetition (`\s*`, `\w+`) followed by a literal not in the class can
only stop at the maximal run, and an optional group (`[?!=]?` at the end
of a pattern) with nothing after it constrains nothing. -/

def wordOpt : Option Char → Bool
  | some c => isWordChar c
  | none => false

def isBoundaryOpt (a b : Option Char) : Bool :=
  wordOpt a != wordOpt b

def searchAux (test : Option Char → List Char → Bool) : Option Char → List Char → Bool
  | prev, [] => test prev []
  | prev, c :: rest => test prev (c :: rest) || searchAux test (some c) rest

def searchFrom (test : Option Char → List Char → Bool) (l : List Char) : Bool :=
  searchAux test none l

def spacesThen (p : List Char → Bool) : List Char → Bool
  | [] => false
  | c :: rest => isPySpace c && (p rest || spacesThen p rest)

def spacesStarThenChar (ch : Char) (l : List Char) : Bool :=
  match l.dropWhile isPySpace with
  | c :: _ => c = ch
  | [] => false

def qualNameHere (name : List Char) (l : List Char) : Bool :=
  name.isPrefixOf l ||
    (let w := l.takeWhile isWordChar
     !w.isEmpty &&
       (match l.drop w.length with
        | '.' :: r => name.isPrefixOf r
        | _ => false))

def defRegexHit (name : List Char) (line : List Char) : Bool :=
  searchFrom (fun prev l =>
    !wordOpt prev && "def".toList.isPrefixOf l &&
      spacesThen (qualNameHere name) (l.drop 3)) line

def classModuleHit (keyword name : List Char) (line : List Char) : Bool :=
  let l := line.dropWhile isPySpace
  keyword.isPrefixOf l &&
    spacesThen (fun r =>
      name.isPrefixOf r &&
        isBoundaryOpt name.getLast? (r.drop name.length).head?) (l.drop keyword.length)

def attrRegexHit (attrType symbol : List Char) (line : List Char) : Bool :=
  searchFrom (fun _ l =>
    attrType.isPrefixOf l &&
      spacesThen (fun r =>
        match r with
        | ':' :: r2 =>
          symbol.isPrefixOf r2 &&
            isBoundaryOpt symbol.getLast? (r2.drop symbol.length).head?
        | _ => false) (l.drop attrType.length)) line

def pyIsUpper (l : List Char) : Bool :=
  l.any (fun c => c.isAlpha) && l.all (fun c => !c.isAlpha || c.isUpper)

def constRegexHit (name : List Char) (line : List Char) : Bool :=
  searchFrom (fun prev l =>
    isBoundaryOpt prev l.head? && name.isPrefixOf l &&
      spacesStarThenChar '=' (l.drop name.length)) line

def varRegexHit (name : List Char) (line : List Char) : Bool :=
  searchFrom (fun _ l =>
    name.isPrefixOf l &&
      (match (l.drop name.length).dropWhile isPySpace with
       | '=' :: _ => true
       | '|' :: '|' :: '=' :: _ => true
       | _ => false)) line

def soft_match_anchor (anchor line : String) : Bool :=
  let a := pyStripL anchor.toList
  let l := line.toList
  if "class ".toList.isPrefixOf a || "module ".toList.isPrefixOf a then
    let keyword := a.takeWhile (fun c => !isPySpace c)
    let restPart := (a.dropWhile (fun c => !isPySpace c)).dropWhile isPySpace
    let name := pyStripL (takeUntilChar '(' restPart)
    classModuleHit keyword name l
  else if "def ".toList.isPrefixOf a then
    let methodSig := pyStripL (takeUntilChar '(' (a.drop 4))
    let methodName := if methodSig.contains '.' then lastSegment '.' methodSig else methodSig
    if defRegexHit methodName l then true
    else infixOfL ("def ".toList ++ methodSig) l
  else if "attr_".toList.isPrefixOf a then
    let parts := pySplitWsL a
    let attrType := parts.headD []
    match parts.drop 1 with
    | sym :: _ => attrRegexHit attrType (sym.dropWhile (fun c => c = ':')) l
    | [] => infixOfL attrType l
  else if pyIsUpper (pyStripL ((a.filter (fun c => c ≠ '_')).filter (fun c => c ≠ '='))) then
    constRegexHit (pyStripL (takeUntilChar '=' a)) l
  else if "@".toList.isPrefixOf a then
    varRegexHit (pyStripL (takeUntilChar '=' ((pySplitWsL a).headD []))) l
  else
    let tokens := pySplitWsL (pyStripL (takeUntilChar '(' a))
    !tokens.isEmpty && tokens.all (fun t => infixOfL t l)

def nearby_order (expected n : Nat) : List Nat :=
  ([-5, -4, -3, -2, -1, 1, 2, 3, 4, 5] : List Int).filterMap (fun o =>
    if 0 ≤ (expected : Int) + o ∧ (expected : Int) + o < (n : Int) then
      some ((expected : Int) + o).toNat
    else none)

def search_order (expected n : Nat) : List Nat :=
  nearby_order expected n ++
    (List.range n).filter (fun i => !(i == expected) && !((nearby_order expected n).contains i))

def find_insertion_line (lines : List String) (line_number : Int) (anchor : String)
    (claimed : List Nat) : Option Nat :=
  if line_number - 1 < 0 ∨ (lines.length : Int) ≤ line_number - 1 then none
  else if (line_number - 1).toNat ∈ claimed then none
  else if containsStr (lines.getD (line_number - 1).toNat "") anchor then
    some (line_number - 1).toNat
  else if soft_match_anchor anchor (lines.getD (line_number - 1).toNat "") then
    some (line_number - 1).toNat
  else
    (search_order (line_number - 1).toNat lines.length).find? (fun idx =>
      !(claimed.contains idx) && soft_match_anchor anchor (lines.getD idx ""))

theorem mem_nearby_order_lt {i e n : Nat} (hm : i ∈ nearby_order e n) : i < n := by
  unfold nearby_order at hm
  obtain ⟨o, ho, he⟩ := List.mem_filterMap.mp hm
  split at he
  · rename_i hio
    obtain rfl := Option.some.inj he
    omega
  · exact absurd he (by simp)

theorem mem_search_order_lt {i e n : Nat} (hm : i ∈ search_order e n) : i < n := by
  unfold search_order at hm
  rcases List.mem_append.mp hm with hn | hr
  · exact mem_nearby_order_lt hn
  · exact List.mem_range.mp (List.mem_filter.mp hr).1

theorem find_insertion_line_sound {lines : List String} {line_number : Int} {anchor : String}
    {claimed : List Nat} {idx : Nat}
    (h : find_insertion_line lines line_number anchor claimed = some idx) :
    idx < lines.length ∧ idx ∉ claimed := by
  unfold find_insertion_line at h
  split at h
  · exact absurd h (by simp)
  rename_i hbound
  have hb : 0 ≤ line_number - 1 ∧ line_number - 1 < (lines.length : Int) := by
    push_neg at hbound; omega
  split at h
  · exact absurd h (by simp)
  rename_i hcl
  split at h
  · obtain rfl := Option.some.inj h
    exact ⟨by omega, hcl⟩
  split at h
  · obtain rfl := Option.some.inj h
    exact ⟨by omega, hcl⟩
  · have hp := List.find?_some h
    have hmem := List.mem_of_find?_eq_some h
    simp only [Bool.and_eq_true, Bool.not_eq_true'] at hp
    refine ⟨mem_search_order_lt hmem, ?_⟩
    simpa using hp.1

/-- Claim C5: the resolver refuses an out-of-bounds expected position and an
already-claimed expected index, and any index it returns is inside the buffer
and not in the claimed set (so a claimed line is never claimed twice in one
pass). -/
theorem claim_C5_resolver_guarantees :
    ∀ (lines : List String) (line_number : Int) (anchor : String) (claimed : List Nat),
      ((line_number - 1 < 0 ∨ (lines.length : Int) ≤ line_number - 1) →
        find_insertion_line lines line_number anchor claimed = none) ∧
      ((0 ≤ line_number - 1 ∧ (line_number - 1).toNat ∈ claimed) →
        find_insertion_line lines line_number anchor claimed = none) ∧
      (∀ idx, find_insertion_line lines line_number anchor claimed = some idx →
        idx < lines.length ∧ idx ∉ claimed) := by
  intro lines n anchor claimed
  refine ⟨?_, ?_, fun idx h => find_insertion_line_sound h⟩
  · intro hbound
    unfold find_insertion_line
    rw [if_pos hbound]
  · intro hcl
    unfold find_insertion_line
    split
    · rfl
    · split
      · rfl
      · rename_i hc
        exact absurd hcl.2 hc

/-- Witness for `claim_C5_resolver_guarantees` at concrete inputs. -/
theorem claim_C5_witness :
    find_insertion_line ["a"] 5 "a" [] = none ∧
    find_insertion_line ["a", "b"] 1 "a" [0] = none ∧
    (0 < (["a"] : List String).length ∧ 0 ∉ ([] : List Nat)) :=
  ⟨(claim_C5_resolver_guarantees ["a"] 5 "a" []).1 (by decide),
   (claim_C5_resolver_guarantees ["a", "b"] 1 "a" [0]).2.1 (by decide),
   (claim_C5_resolver_guarantees ["a"] 1 "a" []).2.2 0 (by decide)⟩

set_option maxRecDepth 8000 in
/-- Claim C6: in a 200-line file whose only soft-matching line for `def foo`
is the declaration at (1-indexed) line 11, a directive claiming line 8
(offset 3, inside the nearby window) resolves to 0-indexed line 10, and a
directive claiming line 61 (offset 50) still resolves there via the
whole-file fallback. -/
theorem claim_C6_drift :
    (find_insertion_line ((List.range 200).map (fun i => if i = 10 then "def foo" else "x = 1"))
        8 "def foo" [] = some 10) ∧
    (find_insertion_line ((List.range 200).map (fun i => if i = 10 then "def foo" else "x = 1"))
        61 "def foo" [] = some 10) := by
  constructor <;> decide

/-! ### Claim C7: definition-like soft matching

The claim is a refinement statement ("exactly when"), so a second family
of definitions below — each marked `Modelled from the spec` — expresses
the claim's own characterization, to be compared with the embedded
`soft_match_anchor`. -/

/-- Modelled from the spec: split the anchor's bare method name into its base
and the optional trailing `?`, `!` or `=`. -/
def split_trailing (n : List Char) : List Char × Option Char :=
  match n.getLast? with
  | some c => if c ∈ ['?', '!', '='] then (n.dropLast, some c) else (n, none)
  | none => (n, none)

/-- Modelled from the spec (definition-like soft match): the bare name,
followed by the anchor's trailing character when it has one, must end the
defined method name there — the next character may not be a word character,
and with no trailing character it may not be `?`, `!` or `=` either. -/
def spec_name_at (base : List Char) (t : Option Char) (l : List Char) : Bool :=
  base.isPrefixOf l &&
    (match t with
     | some c =>
       match (l.drop base.length).head? with
       | some c2 => c2 = c
       | none => false
     | none =>
       match (l.drop base.length).head? with
       | some c2 => !isWordChar c2 && !(c2 ∈ ['?', '!', '='])
       | none => true)

/-- Modelled from the spec: the bare name with an optional receiver
qualifier (a word run followed by a dot). -/
def spec_qual_name (base : List Char) (t : Option Char) (l : List Char) : Bool :=
  spec_name_at base t l ||
    (let w := l.takeWhile isWordChar
     !w.isEmpty &&
       (match l.drop w.length with
        | '.' :: r => spec_name_at base t r
        | _ => false))

/-- Modelled from the spec: the line contains a definition (`def` at a word
boundary, whitespace, optional receiver qualifier) of exactly the bare
method name with the same optional trailing character. -/
def spec_def_match (base : List Char) (t : Option Char) (line : List Char) : Bool :=
  searchFrom (fun prev l =>
    !wordOpt prev && "def".toList.isPrefixOf l &&
      spacesThen (spec_qual_name base t) (l.drop 3)) line

/-- Modelled from the spec: claim C7's characterization of definition-like
soft matching — a definition of the bare name (receiver optional, same
optional trailing character) or the full original signature as an exact
substring.  The anchor is parsed exactly as the source parses it. -/
def claimed_def_match (anchor line : String) : Bool :=
  let a := pyStripL anchor.toList
  let methodSig := pyStripL (takeUntilChar '(' (a.drop 4))
  let methodName := if methodSig.contains '.' then lastSegment '.' methodSig else methodSig
  spec_def_match (split_trailing methodName).1 (split_trailing methodName).2 line.toList ||
    infixOfL ("def ".toList ++ methodSig) line.toList

theorem searchAux_mono {t1 t2 : Option Char → List Char → Bool}
    (hm : ∀ p l, t1 p l = true → t2 p l = true) :
    ∀ (prev : Option Char) (l : List Char),
      searchAux t1 prev l = true → searchAux t2 prev l = true := by
  intro prev l
  induction l generalizing prev with
  | nil => exact fun h => hm _ _ h
  | cons c rest ih =>
    intro h
    simp only [searchAux, Bool.or_eq_true] at h ⊢
    rcases h with h | h
    · exact Or.inl (hm _ _ h)
    · exact Or.inr (ih (some c) h)

theorem spacesThen_mono {p q : List Char → Bool} (hm : ∀ l, p l = true → q l = true) :
    ∀ l, spacesThen p l = true → spacesThen q l = true := by
  intro l
  induction l with
  | nil => exact fun h => h
  | cons c rest ih =>
    intro h
    simp only [spacesThen, Bool.and_eq_true, Bool.or_eq_true] at h ⊢
    rcases h with ⟨hs, h | h⟩
    · exact ⟨hs, Or.inl (hm _ h)⟩
    · exact ⟨hs, Or.inr (ih h)⟩

theorem isPrefixOf_eq_iff {l₁ l₂ : List Char} :
    l₁.isPrefixOf l₂ = true ↔ l₁ <+: l₂ := by
  exact List.isPrefixOf_iff_prefix

theorem spec_name_at_extends {base : List Char} {t : Option Char} {l : List Char}
    (h : spec_name_at base t l = true) :
    (base ++ t.toList).isPrefixOf l = true := by
  simp only [spec_name_at, Bool.and_eq_true] at h
  obtain ⟨hpre, hrest⟩ := h
  obtain ⟨r, rfl⟩ := isPrefixOf_eq_iff.mp hpre
  rw [List.drop_left] at hrest
  cases t with
  | none => simpa using isPrefixOf_eq_iff.mpr ⟨r, by simp⟩
  | some c =>
    cases r with
    | nil => simp at hrest
    | cons c2 r2 =>
      have hc : c2 = c := by simpa using hrest
      subst hc
      exact isPrefixOf_eq_iff.mpr ⟨r2, by simp⟩

theorem spec_qual_name_mono {base : List Char} {t : Option Char} (l : List Char)
    (h : spec_qual_name base t l = true) : qualNameHere (base ++ t.toList) l = true := by
  simp only [spec_qual_name, Bool.or_eq_true, Bool.and_eq_true] at h
  simp only [qualNameHere, Bool.or_eq_true, Bool.and_eq_true]
  rcases h with h | ⟨hw, hmatch⟩
  · exact Or.inl (spec_name_at_extends h)
  · refine Or.inr ⟨hw, ?_⟩
    revert hmatch
    cases hd : l.drop (l.takeWhile isWordChar).length with
    | nil => exact fun h => h
    | cons c2 r =>
      intro hmatch
      split at hmatch
      · rename_i r2 heq
        injection heq with h1 h2
        subst h1
        subst h2
        exact spec_name_at_extends hmatch
      · exact absurd hmatch (by simp)

theorem spec_def_match_mono {base : List Char} {t : Option Char} {line : List Char}
    (h : spec_def_match base t line = true) :
    defRegexHit (base ++ t.toList) line = true := by
  refine searchAux_mono (fun prev l ht => ?_) none line h
  simp only [Bool.and_eq_true] at ht ⊢
  exact ⟨⟨ht.1.1, ht.1.2⟩, spacesThen_mono (fun l2 h2 => spec_qual_name_mono l2 h2) _ ht.2⟩

theorem dropLast_append_getLast?_eq : ∀ (n : List Char) (c : Char),
    n.getLast? = some c → n.dropLast ++ [c] = n := by
  intro n
  induction n with
  | nil => intro c h; exact absurd h (by simp)
  | cons a t ih =>
    intro c h
    cases t with
    | nil =>
      have hac : some a = some c := h
      obtain rfl := Option.some.inj hac
      rfl
    | cons b t2 =>
      have h2 : (b :: t2).getLast? = some c := h
      show a :: ((b :: t2).dropLast ++ [c]) = a :: b :: t2
      rw [ih c h2]

theorem split_trailing_append (n : List Char) :
    (split_trailing n).1 ++ (split_trailing n).2.toList = n := by
  unfold split_trailing
  cases hl : n.getLast? with
  | none => simp
  | some c =>
    show (if c ∈ ['?', '!', '='] then (n.dropLast, some c) else (n, none)).1 ++
        (if c ∈ ['?', '!', '='] then (n.dropLast, some c) else (n, none)).2.toList = n
    by_cases hc : c ∈ ['?', '!', '=']
    · rw [if_pos hc]
      simpa using dropLast_append_getLast?_eq n c hl
    · rw [if_neg hc]
      simp

/-- Claim C7, counterexample to the claim as stated: the source pattern keeps
no boundary after the bare method name, so the anchor `def foo` soft-matches
the line `def  foobar`, which defines `foobar`, not `foo`; the claim's
characterization (including its substring fallback, defeated here by the
double space) rejects that line, so the "exactly when" fails. -/
theorem claim_C7_counterexample :
    soft_match_anchor "def foo" "def  foobar" = true ∧
    claimed_def_match "def foo" "def  foobar" = false := by
  decide

/-- Claim C7 (amended): for a `def`-shaped anchor, soft matching succeeds
whenever — but not only when — the line contains a definition of the bare
method name (receiver qualifier optional, same optional trailing character)
or contains the full original signature as an exact substring; the converse
fails because the embedded pattern also accepts lines where the bare name is
a proper prefix of the defined name. -/
theorem claim_C7_amended :
    ∀ (anchor line : String),
      "def ".toList.isPrefixOf (pyStripL anchor.toList) = true →
      claimed_def_match anchor line = true →
      soft_match_anchor anchor line = true := by
  intro anchor line hdef hcl
  obtain ⟨arest, ha⟩ := List.isPrefixOf_iff_prefix.mp hdef
  have hcla : "class ".toList.isPrefixOf ("def ".toList ++ arest) = false := rfl
  have hmod : "module ".toList.isPrefixOf ("def ".toList ++ arest) = false := rfl
  have hd4 : "def ".toList.isPrefixOf ("def ".toList ++ arest) = true :=
    List.isPrefixOf_iff_prefix.mpr ⟨arest, rfl⟩
  simp only [claimed_def_match, ← ha, Bool.or_eq_true] at hcl
  simp only [soft_match_anchor, ← ha, hcla, hmod, hd4, Bool.or_self, Bool.false_eq_true,
    if_false, if_true]
  rcases hcl with hspec | hinf
  · have hreg := spec_def_match_mono hspec
    rw [split_trailing_append] at hreg
    rw [hreg]
    simp
  · split <;> split <;> first | rfl | exact hinf

/-- Witness for `claim_C7_amended` at a concrete anchor and line. -/
theorem claim_C7_witness :
    soft_match_anchor "def foo" "  def self.foo" = true :=
  claim_C7_amended "def foo" "  def self.foo" (by decide) (by decide)

/-! ### Patch Applier (`insert_comments`, generate_docs.py 740-821)

A `CommentEntry` is one well-typed directive of the wire format; Python
falsiness of its fields (`if not line_number or not anchor or not
comment_text`) is `line_number = 0` or emptiness of the stripped strings.
The loop state of the source — the mutable `lines` buffer, the
`inserted_at_lines` set and the `documented_anchors` set — is threaded
explicitly through `insert_step`; the extra `applied` component records
which directives were actually inserted (pure instrumentation, used only
to state properties).  `sortDesc` is a stable descending sort by declared
line number, the specified behaviour of `sorted(key=line_number,
reverse=True)`; any stable descending sort computes the same list.  The
source binds each entry's `indent` field and never reads it again, so
`insert_step` has no use for `CommentEntry.indent`. -/

structure CommentEntry where
  line_number : Int
  anchor : String
  indent : Int
  comment : String
deriving DecidableEq

structure InsState where
  lines : List String
  claimed : List Nat
  anchors : List String
  applied : List CommentEntry
deriving DecidableEq

def leading_ws_count (s : String) : Nat :=
  (s.toList.takeWhile isPySpace).length

def spaces (n : Nat) : String :=
  ⟨List.replicate n ' '⟩

def normalized_anchor (anchor : String) : String :=
  pyStrip (pyLower anchor)

def build_comment_block (indent_str : String) (comment_text : String) : List String :=
  (pySplitLines comment_text).map (fun cl => if pyStrip cl ≠ "" then indent_str ++ cl else "")

def insert_step (s : InsState) (e : CommentEntry) : InsState :=
  if e.line_number = 0 ∨ pyStrip e.anchor = "" ∨ pyStrip e.comment = "" then s
  else if normalized_anchor (pyStrip e.anchor) ∈ s.anchors then s
  else
    match find_insertion_line s.lines e.line_number (pyStrip e.anchor) s.claimed with
    | none => s
    | some idx =>
      { lines := s.lines.take idx ++
          build_comment_block (spaces (leading_ws_count (s.lines.getD idx "")))
            (pyStrip e.comment) ++ s.lines.drop idx,
        claimed := idx :: s.claimed,
        anchors := s.anchors ++ [normalized_anchor (pyStrip e.anchor)],
        applied := s.applied ++ [e] }

def insertDesc (e : CommentEntry) : List CommentEntry → List CommentEntry
  | [] => [e]
  | x :: xs => if x.line_number < e.line_number then e :: x :: xs else x :: insertDesc e xs

def sortDesc (l : List CommentEntry) : List CommentEntry :=
  l.foldl (fun acc e => insertDesc e acc) []

def insert_comments_core (original_lines : List String) (comments : List CommentEntry) :
    InsState :=
  if comments.isEmpty then ⟨original_lines, [], [], []⟩
  else (sortDesc comments).foldl insert_step ⟨original_lines, [], [], []⟩

def insert_comments (original_lines : List String) (comments : List CommentEntry) :
    List String :=
  (insert_comments_core original_lines comments).lines

def applied_entries (original_lines : List String) (comments : List CommentEntry) :
    List CommentEntry :=
  (insert_comments_core original_lines comments).applied

def comment_line_count (e : CommentEntry) : Nat :=
  (pySplitLines (pyStrip e.comment)).length

def applied_line_sum (l : List CommentEntry) : Nat :=
  (l.map comment_line_count).sum

theorem insert_step_length (s : InsState) (e : CommentEntry) :
    (insert_step s e).lines.length + applied_line_sum s.applied =
      s.lines.length + applied_line_sum (insert_step s e).applied := by
  unfold insert_step
  split
  · rfl
  split
  · rfl
  split
  · rfl
  · rename_i idx hfind
    have hidx := (find_insertion_line_sound hfind).1
    simp only [List.length_append, List.length_take, List.length_drop, build_comment_block,
      List.length_map, applied_line_sum, List.map_append, List.sum_append, List.map_cons,
      List.map_nil, List.sum_cons, List.sum_nil, comment_line_count]
    omega

theorem foldl_insert_step_length : ∀ (cs : List CommentEntry) (s : InsState),
    (cs.foldl insert_step s).lines.length + applied_line_sum s.applied =
      s.lines.length + applied_line_sum ((cs.foldl insert_step s).applied) := by
  intro cs
  induction cs with
  | nil => intro s; rfl
  | cons e t ih =>
    intro s
    have h1 := insert_step_length s e
    have h2 := ih (insert_step s e)
    simp only [List.foldl_cons]
    omega

/-- Claim C2 (amended): the number of lines of the applier's output equals the
number of lines of the original plus the sum, over the successfully applied
directives, of the line count of each directive's comment text after
stripping surrounding whitespace. -/
theorem claim_C2_amended :
    ∀ (original_lines : List String) (comments : List CommentEntry),
      (insert_comments original_lines comments).length =
        original_lines.length + applied_line_sum (applied_entries original_lines comments) := by
  intro o c
  unfold insert_comments applied_entries insert_comments_core
  split
  · simp [applied_line_sum]
  · have h := foldl_insert_step_length (sortDesc c) ⟨o, [], [], []⟩
    simpa [applied_line_sum] using h

/-- Claim C2, counterexample to the claim as stated: the applier strips each
comment before splitting it into lines, so this successfully applied
directive, whose raw comment starts with a newline (two raw lines), inserts
only one output line, and the stated law over the raw comment's line count
fails (1 + 2 = 3 on the right, 2 lines of output on the left). -/
theorem claim_C2_counterexample :
    applied_entries ["a"] [⟨1, "a", 0, "\n# x"⟩] = [⟨1, "a", 0, "\n# x"⟩] ∧
    (insert_comments ["a"] [⟨1, "a", 0, "\n# x"⟩]).length = 2 ∧
    (pySplitLines ("\n# x" : String)).length = 2 ∧
    (["a"] : List String).length + (pySplitLines ("\n# x" : String)).length ≠ 2 := by
  decide

/-- Claim C3: the applier is a deterministic pure function of its inputs —
two runs on identical inputs produce identical line buffers (hence
byte-identical joined file contents). -/
theorem claim_C3_determinism :
    ∀ (o₁ o₂ : List String) (c₁ c₂ : List CommentEntry),
      o₁ = o₂ → c₁ = c₂ → insert_comments o₁ c₁ = insert_comments o₂ c₂ := by
  intro o₁ o₂ c₁ c₂ ho hc
  rw [ho, hc]

/-- Witness for `claim_C3_determinism` at a concrete input. -/
theorem claim_C3_witness :
    insert_comments ["a"] [⟨1, "a", 0, "# d"⟩] = insert_comments ["a"] [⟨1, "a", 0, "# d"⟩] :=
  claim_C3_determinism ["a"] ["a"] [⟨1, "a", 0, "# d"⟩] [⟨1, "a", 0, "# d"⟩] rfl rfl

/-- The normalized (trimmed, lowercased) anchor of a directive, as the
applier computes it for duplicate suppression. -/
def normalized_of (e : CommentEntry) : String :=
  normalized_anchor (pyStrip e.anchor)

theorem insert_step_anchors_inv (s : InsState) (e : CommentEntry)
    (h1 : s.anchors = s.applied.map normalized_of) (h2 : s.anchors.Nodup) :
    (insert_step s e).anchors = (insert_step s e).applied.map normalized_of ∧
      (insert_step s e).anchors.Nodup := by
  simp only [insert_step]
  by_cases hskip : e.line_number = 0 ∨ pyStrip e.anchor = "" ∨ pyStrip e.comment = ""
  · rw [if_pos hskip]; exact ⟨h1, h2⟩
  rw [if_neg hskip]
  by_cases hdup : normalized_anchor (pyStrip e.anchor) ∈ s.anchors
  · rw [if_pos hdup]; exact ⟨h1, h2⟩
  rw [if_neg hdup]
  cases hfind : find_insertion_line s.lines e.line_number (pyStrip e.anchor) s.claimed with
  | none => exact ⟨h1, h2⟩
  | some idx =>
    refine ⟨by simp [h1, normalized_of], ?_⟩
    rw [List.nodup_append]
    refine ⟨h2, List.nodup_singleton _, ?_⟩
    intro a ha hb
    simp only [List.mem_singleton] at hb
    subst hb
    exact hdup ha

theorem foldl_insert_step_anchors : ∀ (cs : List CommentEntry) (s : InsState),
    s.anchors = s.applied.map normalized_of → s.anchors.Nodup →
    (cs.foldl insert_step s).anchors = (cs.foldl insert_step s).applied.map normalized_of ∧
      (cs.foldl insert_step s).anchors.Nodup := by
  intro cs
  induction cs with
  | nil => intro s h1 h2; exact ⟨h1, h2⟩
  | cons e t ih =>
    intro s h1 h2
    have h := insert_step_anchors_inv s e h1 h2
    simpa only [List.foldl_cons] using ih (insert_step s e) h.1 h.2

/-- Claim C8: no two blocks inserted by the applier into one output
correspond to the same normalized (trimmed, case-insensitive) anchor; in
particular, two directives targeting the same anchor text case-insensitively
produce exactly one inserted block. -/
theorem claim_C8_anchor_uniqueness :
    (∀ (o : List String) (c : List CommentEntry),
      ((applied_entries o c).map normalized_of).Nodup) ∧
    (applied_entries ["def foo"]
      [⟨1, "def foo", 0, "# doc"⟩, ⟨1, "DEF FOO", 2, "# doc2"⟩]).length = 1 := by
  constructor
  · intro o c
    unfold applied_entries insert_comments_core
    split
    · simp
    · have h := foldl_insert_step_anchors (sortDesc c) ⟨o, [], [], []⟩ (by simp) (by simp)
      rw [← h.1]
      exact h.2
  · decide

/-- Components of the applier state other than the instrumentation: the
inserted-lines buffer, the claimed set and the placed-anchor set do not
depend on a directive's `indent` field (the source binds `indent` and never
uses it) nor on the `applied` instrumentation component. -/
theorem insert_step_components (s t : InsState) (e : CommentEntry) (v : Int)
    (hl : s.lines = t.lines) (hc : s.claimed = t.claimed) (ha : s.anchors = t.anchors) :
    (insert_step s ⟨e.line_number, e.anchor, v, e.comment⟩).lines = (insert_step t e).lines ∧
    (insert_step s ⟨e.line_number, e.anchor, v, e.comment⟩).claimed =
      (insert_step t e).claimed ∧
    (insert_step s ⟨e.line_number, e.anchor, v, e.comment⟩).anchors =
      (insert_step t e).anchors := by
  obtain ⟨L, C, A, ap1⟩ := s
  obtain ⟨L', C', A', ap2⟩ := t
  obtain ⟨ln, a, i, cm⟩ := e
  simp only at hl hc ha
  subst hl; subst hc; subst ha
  simp only [insert_step]
  split
  · exact ⟨rfl, rfl, rfl⟩
  split
  · exact ⟨rfl, rfl, rfl⟩
  split
  · exact ⟨rfl, rfl, rfl⟩
  · exact ⟨rfl, rfl, rfl⟩

theorem foldl_insert_step_components (f : CommentEntry → Int) :
    ∀ (cs : List CommentEntry) (s t : InsState),
      s.lines = t.lines → s.claimed = t.claimed → s.anchors = t.anchors →
      ((cs.map (fun e => ⟨e.line_number, e.anchor, f e, e.comment⟩)).foldl insert_step s).lines =
        (cs.foldl insert_step t).lines := by
  intro cs
  induction cs with
  | nil => intro s t hl _ _; simpa using hl
  | cons e rest ih =>
    intro s t hl hc ha
    simp only [List.map_cons, List.foldl_cons]
    have h := insert_step_components s t e (f e) hl hc ha
    exact ih _ _ h.1 h.2.1 h.2.2

theorem insertDesc_map (f : CommentEntry → Int) (e : CommentEntry) :
    ∀ l : List CommentEntry,
      insertDesc (⟨e.line_number, e.anchor, f e, e.comment⟩ : CommentEntry)
          (l.map (fun x => ⟨x.line_number, x.anchor, f x, x.comment⟩)) =
        (insertDesc e l).map (fun x => ⟨x.line_number, x.anchor, f x, x.comment⟩) := by
  intro l
  induction l with
  | nil => rfl
  | cons x xs ih =>
    simp only [List.map_cons, insertDesc]
    by_cases hlt : x.line_number < e.line_number
    · rw [if_pos hlt, if_pos hlt]
      simp
    · rw [if_neg hlt, if_neg hlt]
      simp only [List.map_cons, ih]

theorem sortDesc_map (f : CommentEntry → Int) (c : List CommentEntry) :
    sortDesc (c.map (fun e => ⟨e.line_number, e.anchor, f e, e.comment⟩)) =
      (sortDesc c).map (fun e => ⟨e.line_number, e.anchor, f e, e.comment⟩) := by
  unfold sortDesc
  suffices h : ∀ acc,
      ((c.map (fun e => ⟨e.line_number, e.anchor, f e, e.comment⟩)).foldl
          (fun a e => insertDesc e a)
          (acc.map (fun e => (⟨e.line_number, e.anchor, f e, e.comment⟩ : CommentEntry)))) =
        (c.foldl (fun a e => insertDesc e a) acc).map
          (fun e => ⟨e.line_number, e.anchor, f e, e.comment⟩) by
    simpa using h []
  induction c with
  | nil => intro acc; simp
  | cons e rest ih =>
    intro acc
    simp only [List.map_cons, List.foldl_cons, insertDesc_map f e acc]
    exact ih (insertDesc e acc)

/-- Modelled from the spec (amended wording): the block inserted for one
directive — every non-blank line of its stripped comment text prefixed with
exactly the matched line's leading whitespace, blank lines inserted as empty
lines without padding. -/
def spec_comment_block (indent_str : String) (comment_text : String) : List String :=
  (pySplitLines comment_text).map (fun cl => if pyStrip cl = "" then "" else indent_str ++ cl)

/-- Claim C9 (amended): the applier's output is invariant under arbitrary
changes of every directive's advisory `indent` field, and the block
inserted for a directive is its stripped comment, non-blank lines indented
with exactly the matched line's leading whitespace, blank lines inserted as
empty lines (not as-is). -/
theorem claim_C9_indent :
    (∀ (o : List String) (c : List CommentEntry) (f : CommentEntry → Int),
      insert_comments o (c.map (fun e => ⟨e.line_number, e.anchor, f e, e.comment⟩)) =
        insert_comments o c) ∧
    (∀ (indent_str comment_text : String),
      build_comment_block indent_str comment_text =
        spec_comment_block indent_str comment_text) := by
  constructor
  · intro o c f
    unfold insert_comments insert_comments_core
    rw [sortDesc_map f c]
    by_cases hc : c.isEmpty
    · have : c = [] := List.isEmpty_iff.mp hc
      subst this
      rfl
    · rw [if_neg (by simpa using hc), if_neg (by simpa using hc)]
      exact foldl_insert_step_components f (sortDesc c) ⟨o, [], [], []⟩ ⟨o, [], [], []⟩ rfl rfl rfl
  · intro indent_str comment_text
    unfold build_comment_block spec_comment_block
    apply List.map_congr_left
    intro cl _
    by_cases h : pyStrip cl = "" <;> simp [h]

/-- Claim C9, counterexample to "blank comment lines are inserted as-is":
this directive's comment has a whitespace-only middle line (a single space),
which the applier inserts as the empty string, not as-is. -/
theorem claim_C9_counterexample :
    insert_comments ["  q"] [⟨1, "q", 0, "# a\n \n# b"⟩] = ["  # a", "", "  # b", "  q"] ∧
    (pySplitLines (pyStrip ((⟨1, "q", 0, "# a\n \n# b"⟩ : CommentEntry).comment))).getD 1 "?" =
      " " ∧
    (insert_comments ["  q"] [⟨1, "q", 0, "# a\n \n# b"⟩]).getD 1 "?" ≠ " " := by
  decide

/-! ### Content-Hash Manifest (`compute_code_hash` / `is_file_processed` /
`mark_file_processed`, generate_docs.py 153-274)

The truncated SHA-256 of the newline-join of the retained code lines is
abstracted as `h : List String → String` applied to the retained-line
list.  The filesystem appears as an existence predicate (for the
output-file check) and a read function returning a file's lines, `none`
modelling a failed read (the `except` branches).  The embedding covers
the flat output structure; the mirror branch resolves paths against the
real filesystem (`Path.resolve` / `relative_to`), which has no
counterpart in the embedding, and every claim below concerns the flat
layout.  In the lines representation the empty file reads as `[""]`
(Python `''.split('\n') == ['']`), which is how `mark_file_processed`
renders the falsiness of an empty `content` argument. -/

def yard_tags : List String :=
  ["@param", "@return", "@example", "@note", "@see", "@yield"]

def keep_code_line (line : String) : Bool :=
  let s := pyStripL line.toList
  if ['#'].isPrefixOf s && yard_tags.any (fun t => infixOfL t.toList s) then
    false
  else if ['#'].isPrefixOf s && decide (1 < s.length) && (s.getD 1 ' ' == ' ') then
    ['#', '!'].isPrefixOf s || infixOfL "coding:".toList s || infixOfL "encoding:".toList s
  else
    true

def compute_code_hash (h : List String → String) (lines : List String) : String :=
  h (lines.filter keep_code_line)

structure ManifestEntry where
  timestamp : String
  provider : String
  content_hash : Option String
  file_name : String
deriving DecidableEq

structure Manifest where
  processed_files : List (String × ManifestEntry)
  failed_files : List String
  timestamp : String
deriving DecidableEq

def lookupA (l : List (String × ManifestEntry)) (k : String) : Option ManifestEntry :=
  match l with
  | [] => none
  | (k2, v) :: t => if k2 = k then some v else lookupA t k

def insertA (k : String) (v : ManifestEntry) :
    List (String × ManifestEntry) → List (String × ManifestEntry)
  | [] => [(k, v)]
  | (k2, v2) :: t => if k2 = k then (k, v) :: t else (k2, v2) :: insertA k v t

def fileName (p : String) : String :=
  ⟨lastSegment '/' p.toList⟩

def mark_file_processed (h : List String → String)
    (fileContent : String → Option (List String)) (m : Manifest) (now provider : String)
    (path : String) (success : Bool) (content : Option (List String)) : Manifest :=
  if success then
    let content_hash : Option String :=
      match content with
      | some c =>
        if c = [""] then (fileContent path).map (compute_code_hash h)
        else some (compute_code_hash h c)
      | none => (fileContent path).map (compute_code_hash h)
    { m with processed_files :=
        insertA path ⟨now, provider, content_hash, fileName path⟩ m.processed_files }
  else
    { m with failed_files :=
        if path ∈ m.failed_files then m.failed_files else m.failed_files ++ [path] }

def is_file_processed (incremental : Bool) (m : Manifest) (h : List String → String)
    (fsExists : String → Bool) (fileContent : String → Option (List String))
    (path : String) : Bool :=
  if !incremental then false
  else
    match lookupA m.processed_files path with
    | none => false
    | some stored =>
      if !fsExists ("documented/" ++ fileName path) then false
      else
        match fileContent path with
        | none => false
        | some current => some (compute_code_hash h current) == stored.content_hash

def get_output_file_path (output_dir : String) (path : String) : String :=
  output_dir ++ "/documented/" ++ fileName path

theorem lookupA_insertA_self (l : List (String × ManifestEntry)) (k : String)
    (v : ManifestEntry) : lookupA (insertA k v l) k = some v := by
  induction l with
  | nil => simp [insertA, lookupA]
  | cons kv t ih =>
    obtain ⟨k2, v2⟩ := kv
    by_cases hk : k2 = k
    · subst hk; simp [insertA, lookupA]
    · simp [insertA, lookupA, hk, ih]

/-- Claim C10: marking a path successful touches only the processed-files
mapping (the failed list and manifest timestamp are unchanged, so an
earlier failure stays listed); marking it failed touches only the failed
list, appending the path at most once (membership is guaranteed,
duplicate-freeness is preserved) and leaves the processed-files mapping
unchanged. -/
theorem claim_C10_frame :
    ∀ (h : List String → String) (fc : String → Option (List String)) (m : Manifest)
      (now provider path : String) (content : Option (List String)),
      ((mark_file_processed h fc m now provider path true content).failed_files =
          m.failed_files ∧
        (mark_file_processed h fc m now provider path true content).timestamp =
          m.timestamp) ∧
      ((mark_file_processed h fc m now provider path false content).processed_files =
          m.processed_files ∧
        (mark_file_processed h fc m now provider path false content).timestamp =
          m.timestamp ∧
        path ∈ (mark_file_processed h fc m now provider path false content).failed_files ∧
        (m.failed_files.Nodup →
          (mark_file_processed h fc m now provider path false content).failed_files.Nodup)) := by
  intro h fc m now provider path content
  refine ⟨⟨rfl, rfl⟩, rfl, rfl, ?_, ?_⟩
  · simp only [mark_file_processed]
    by_cases hp : path ∈ m.failed_files
    · simp [hp]
    · simp [hp]
  · intro hnd
    by_cases hp : path ∈ m.failed_files
    · simpa [mark_file_processed, hp] using hnd
    · have hf : (mark_file_processed h fc m now provider path false content).failed_files =
          m.failed_files ++ [path] := by simp [mark_file_processed, hp]
      rw [hf, List.nodup_append]
      refine ⟨hnd, List.nodup_singleton _, ?_⟩
      intro a ha hb
      rw [List.mem_singleton] at hb
      subst hb
      exact hp ha

/-- Witness for `claim_C10_frame` at a concrete manifest. -/
theorem claim_C10_witness :
    (mark_file_processed (fun l => String.intercalate "\n" l) (fun _ => none)
        ⟨[], ["old.rb"], "t0"⟩ "t1" "openai" "a.rb" false none).failed_files.Nodup :=
  ((claim_C10_frame (fun l => String.intercalate "\n" l) (fun _ => none)
      ⟨[], ["old.rb"], "t0"⟩ "t1" "openai" "a.rb" none).2.2.2.2) (by decide)

/-- Claim C1 (amended): at the `is_file_processed` level, after a successful
incremental-mode processing of `path` with content `content` is recorded,
(1) a second run with byte-identical content reports the file as processed,
provided the committed repo-root copy `documented/<name>` exists — the code
checks that path, not the configured output location; (2) if the digest of
the re-read content's retained code lines differs from the recorded one,
the file is reported unprocessed, forcing reprocessing; and (3) changing
one retained (non-comment) code line always changes the retained-line
sequence the digest is computed over, so with a collision-free digest such
a change forces reprocessing. -/
theorem claim_C1_amended :
    ∀ (h : List String → String) (fc0 fc fc2 : String → Option (List String))
      (fsE : String → Bool) (m : Manifest) (now provider path : String)
      (content content2 : List String),
      content ≠ [""] →
      fsE ("documented/" ++ fileName path) = true →
      fc path = some content →
      fc2 path = some content2 →
      (is_file_processed true
          (mark_file_processed h fc0 m now provider path true (some content))
          h fsE fc path = true) ∧
      (h (content2.filter keep_code_line) ≠ h (content.filter keep_code_line) →
        is_file_processed true
          (mark_file_processed h fc0 m now provider path true (some content))
          h fsE fc2 path = false) ∧
      (∀ (pre post : List String) (l l2 : String),
        keep_code_line l = true → keep_code_line l2 = true → l ≠ l2 →
        (pre ++ [l2] ++ post).filter keep_code_line ≠
          (pre ++ [l] ++ post).filter keep_code_line) := by
  intro h fc0 fc fc2 fsE m now provider path content content2 hne hfs hfc hfc2
  have hmark : (mark_file_processed h fc0 m now provider path true (some content)).processed_files =
      insertA path ⟨now, provider, some (compute_code_hash h content), fileName path⟩
        m.processed_files := by
    simp [mark_file_processed, hne]
  have hlook : lookupA (mark_file_processed h fc0 m now provider path true
        (some content)).processed_files path =
      some ⟨now, provider, some (compute_code_hash h content), fileName path⟩ := by
    rw [hmark]; exact lookupA_insertA_self _ _ _
  refine ⟨?_, ?_, ?_⟩
  · simp [is_file_processed, hlook, hfs, hfc]
  · intro hdiff
    simp [is_file_processed, hlook, hfs, hfc2, compute_code_hash]
    exact fun he => absurd he hdiff
  · intro pre post l l2 hl hl2 hll
    simp only [List.filter_append, List.filter_cons, hl, hl2, if_true, List.filter_nil]
    intro he
    rw [List.append_assoc, List.append_assoc] at he
    have h2 := List.append_cancel_left he
    simp only [List.cons_append, List.nil_append, List.cons.injEq] at h2
    exact hll (h2.1.symm)

/-- Claim C1, counterexample to the claim as stated: a successful
incremental run on `a.rb` records its hash and the documented output is
written to the configured output location (the flat
`output/latest/documented/a.rb`, which the filesystem below reports as
existing), yet a second run with byte-identical content reports the file
as NOT processed, because `is_file_processed` checks the repo-root
`documented/a.rb` instead of the configured output location. -/
theorem claim_C1_counterexample :
    get_output_file_path "output/latest" "a.rb" = "output/latest/documented/a.rb" ∧
    is_file_processed true
      (mark_file_processed (fun l => String.intercalate "\n" l) (fun _ => none)
        ⟨[], [], "t0"⟩ "t1" "openai" "a.rb" true (some ["x = 1"]))
      (fun l => String.intercalate "\n" l)
      (fun p => p == "output/latest/documented/a.rb")
      (fun p => if p == "a.rb" then some ["x = 1"] else none)
      "a.rb" = false := by
  decide

/-- Witness for `claim_C1_amended` at a concrete state: with the committed
`documented/a.rb` present the unchanged file is skipped, changing the code
line `x = 1` to `x = 2` forces reprocessing, and the retained-line
sequences of the two contents differ. -/
theorem claim_C1_witness :
    (is_file_processed true
        (mark_file_processed (fun l => String.intercalate "\n" l) (fun _ => none)
          ⟨[], [], "t0"⟩ "t1" "openai" "a.rb" true (some ["x = 1"]))
        (fun l => String.intercalate "\n" l)
        (fun p => p == "documented/a.rb")
        (fun p => if p == "a.rb" then some ["x = 1"] else none)
        "a.rb" = true) ∧
    (is_file_processed true
        (mark_file_processed (fun l => String.intercalate "\n" l) (fun _ => none)
          ⟨[], [], "t0"⟩ "t1" "openai" "a.rb" true (some ["x = 1"]))
        (fun l => String.intercalate "\n" l)
        (fun p => p == "documented/a.rb")
        (fun p => if p == "a.rb" then some ["x = 2"] else none)
        "a.rb" = false) ∧
    (([] ++ ["x = 2"] ++ []).filter keep_code_line ≠
      ([] ++ ["x = 1"] ++ []).filter keep_code_line) := by
  refine ⟨?_, ?_, ?_⟩
  · exact (claim_C1_amended (fun l => String.intercalate "\n" l) (fun _ => none)
      (fun p => if p == "a.rb" then some ["x = 1"] else none)
      (fun p => if p == "a.rb" then some ["x = 2"] else none)
      (fun p => p == "documented/a.rb") ⟨[], [], "t0"⟩ "t1" "openai" "a.rb"
      ["x = 1"] ["x = 2"] (by decide) (by decide) (by decide) (by decide)).1
  · exact (claim_C1_amended (fun l => String.intercalate "\n" l) (fun _ => none)
      (fun p => if p == "a.rb" then some ["x = 1"] else none)
      (fun p => if p == "a.rb" then some ["x = 2"] else none)
      (fun p => p == "documented/a.rb") ⟨[], [], "t0"⟩ "t1" "openai" "a.rb"
      ["x = 1"] ["x = 2"] (by decide) (by decide) (by decide) (by decide)).2.1 (by decide)
  · exact (claim_C1_amended (fun l => String.intercalate "\n" l) (fun _ => none)
      (fun p => if p == "a.rb" then some ["x = 1"] else none)
      (fun p => if p == "a.rb" then some ["x = 2"] else none)
      (fun p => p == "documented/a.rb") ⟨[], [], "t0"⟩ "t1" "openai" "a.rb"
      ["x = 1"] ["x = 2"] (by decide) (by decide) (by decide) (by decide)).2.2
      [] [] "x = 1" "x = 2" (by decide) (by decide) (by decide)

end GenDocs
